import Mathlib

/-!
Shallow embedding of the per-user rule registry of the Rust4Linux character
device (CharDevice/CharDevRustV4): the structures in
src/ioctlcmd/structures/mod.rs (Rule, UserRule, UserRuleStore and its
operations add_rule, remove_rule, get_rules_by_id, get_all_rules), the ioctl
codec helper IoctlArgument::create_cstring_from_rule, the IOCTL_READ_RULES
branch of rust_ioctl, the streaming rust_read handler and the
pretty_print_rules formatter from src/ioctlcmd/mod.rs.

A stored rule is modelled as the byte contents of its CString (a list of
bytes, each a Nat); the store behind the mutex is the list of UserRule
entries in insertion order.  Machine integers stay exact: every byte and
length fits in the Rust types involved, so no wrap-around modelling is
needed.  Error codes are carried as their positive errno numbers.
-/

deriving instance DecidableEq for Except

set_option maxRecDepth 40000

namespace SecModule

/-- RULE_SIZE from structures/constant: maximum byte length of one rule. -/
def RULE_SIZE : Nat := 256

/-- RULE_NUMBER: maximum number of rules rendered into the response buffer. -/
def RULE_NUMBER : Nat := 16

/-- RULE_BUFFER_SIZE = RULE_SIZE * RULE_NUMBER: size of the fixed
IoctlReadArgument.rules_buffer. -/
def RULE_BUFFER_SIZE : Nat := RULE_SIZE * RULE_NUMBER

/-- errno for EINVAL. -/
def EINVAL : Nat := 22

/-- errno for ENOMEM. -/
def ENOMEM : Nat := 12

/-- errno for EFAULT. -/
def EFAULT : Nat := 14

/-- The byte contents of one stored rule (the bytes of the CString held in
Rule.rule, without the trailing NUL). -/
abbrev RuleBytes := List Nat

/-- UserRule: the association between one uid and its ordered rule list. -/
structure UserRule where
  uid : Nat
  rules : List RuleBytes
deriving DecidableEq

/-- The registry contents: the Vec of UserRule guarded by the store mutex,
in insertion order. -/
abbrev Store := List UserRule

/-- Rule::new from structures/mod.rs: rejects an input whose byte length
exceeds RULE_SIZE with EINVAL, otherwise wraps it unchanged. -/
def Rule.new (rule_data : RuleBytes) : Except Nat RuleBytes :=
  if rule_data.length > RULE_SIZE then .error EINVAL else .ok rule_data

/-- UserRuleStore::add_rule: find the first entry with the given uid and
append the new rule to its Vec; if no entry matches, push a fresh
UserRule with that single rule at the end of the store.  The source
performs no length validation here (it builds the Rule record directly,
bypassing Rule::new) and, allocation aside, always returns Ok. -/
def add_rule : Store → Nat → RuleBytes → Store
  | [], uid, r => [⟨uid, [r]⟩]
  | ur :: rest, uid, r =>
    if ur.uid = uid then ⟨ur.uid, ur.rules ++ [r]⟩ :: rest
    else ur :: add_rule rest uid r

/-- UserRuleStore::remove_rule: find the first entry with the given uid and
retain only the rules whose bytes differ from the argument; if that
entry's rule Vec becomes empty, retain in the whole store only the
entries whose uid differs (entries before the first match cannot carry
that uid, so filtering the tail is the same retain).  Absent uid is a
no-op, and the source, allocation aside, always returns Ok. -/
def remove_rule : Store → Nat → RuleBytes → Store
  | [], _, _ => []
  | ur :: rest, uid, r =>
    if ur.uid = uid then
      let filtered := ur.rules.filter (fun x => decide (x ≠ r))
      if filtered.isEmpty then rest.filter (fun u => decide (u.uid ≠ uid))
      else ⟨ur.uid, filtered⟩ :: rest
    else ur :: remove_rule rest uid r

/-- UserRuleStore::get_rules_by_id: an owned copy of the first entry with
the given uid, or Err(EINVAL) when no entry matches (the source never
returns Ok(None)).  Cloning is modelled as the identity; allocation
failure during the clone is modelled separately for the allocation
claims. -/
def get_rules_by_id (store : Store) (uid : Nat) : Except Nat (Option UserRule) :=
  match store.find? (fun ur => ur.uid == uid) with
  | some ur => .ok (some ur)
  | none => .error EINVAL

/-- ASCII bytes of a Lean string literal, used to transcribe the fixed text
fragments that pretty_print_rules emits. -/
def strBytes (s : String) : List Nat := s.data.map Char.toNat

/-- Decimal ASCII rendering of a number, as produced by the display
formatting of u32 and usize values (most significant digit first, no
leading zeros, 0 rendered as "0"). -/
def natDecimalBytes (n : Nat) : List Nat := (Nat.toDigits 10 n).map Char.toNat

/-- The numbered rule lines of pretty_print_rules: for each rule, in order,
"Rule i: " (1-based), the rule bytes, then a newline. -/
def rule_lines : Nat → List RuleBytes → List Nat
  | _, [] => []
  | i, r :: rs =>
    strBytes "Rule " ++ natDecimalBytes i ++ strBytes ": " ++ r ++ strBytes "\n"
      ++ rule_lines (i + 1) rs

/-- pretty_print_rules from ioctlcmd/mod.rs: the bytes appended to the
output Vec for one UserRule: the UID header line, the numbered rule
lines, and the footer line. -/
def pretty_print_rules (ur : UserRule) : List Nat :=
  strBytes "---- UID: " ++ natDecimalBytes ur.uid ++ strBytes " ----\n"
    ++ rule_lines 1 ur.rules
    ++ strBytes " ---- ---- ----\n"

/-- The full dump that rust_read builds: get_all_rules in store order, each
entry rendered by pretty_print_rules into one output Vec. -/
def full_dump (store : Store) : List Nat := (store.map pretty_print_rules).flatten

/-- rust_read from ioctlcmd/mod.rs, for the runs in which get_all_rules and
the output formatting succeed.  Arguments: the store contents, the
caller's count, the caller's current offset, and whether the
write_slice copy to the user buffer succeeds (the copy crosses the
trust boundary and may fault).  Result: the isize return value, the
bytes that reached the user buffer, and the offset value after the
call.  The source returns 0 at end-of-stream without touching the
offset, returns -EFAULT leaving the offset untouched when the copy
fails, and otherwise writes output[offset..offset+len], stores
offset+len back through the offset pointer and returns len. -/
def rust_read (store : Store) (count offset : Nat) (copyOk : Bool) :
    Int × List Nat × Nat :=
  let output := full_dump store
  if offset ≥ output.length then (0, [], offset)
  else
    let len := min count (output.length - offset)
    if 0 < len then
      if copyOk then ((len : Int), (output.drop offset).take len, offset + len)
      else (-(EFAULT : Int), [], offset)
    else (0, [], offset)

/-- Sequential rust_read calls with the given counts, each starting at the
offset produced by the previous call, all copies succeeding; collects
the data slices in order. -/
def read_seq (store : Store) : List Nat → Nat → List (List Nat)
  | [], _ => []
  | c :: cs, offset =>
    let r := rust_read store c offset true
    r.2.1 :: read_seq store cs r.2.2

/-- The IOCTL_READ_RULES branch of rust_ioctl, after the IoctlReadArgument
has been copied in: get_rules_by_id for the requested uid (absent uid
surfaces EINVAL); when an entry is present the dump of that entry is
rendered, then output_len = min(output.len, RULE_BUFFER_SIZE) bytes are
copied into rules_buffer and written back to the caller.  Result: the
bytes written into the caller's rules buffer. -/
def rust_ioctl_read_rules (store : Store) (uid : Nat) : Except Nat (List Nat) :=
  match get_rules_by_id store uid with
  | .error e => .error e
  | .ok opt =>
    let output : List Nat :=
      match opt with
      | some ur => pretty_print_rules ur
      | none => []
    let output_len := min output.length RULE_BUFFER_SIZE
    .ok (output.take output_len)

/-- iter().position(|&byte| byte == 0) on the fixed-width rule field: index
of the first zero byte, if any. -/
def position_of_nul : List Nat → Option Nat
  | [] => none
  | b :: rest => if b = 0 then some 0 else (position_of_nul rest).map (· + 1)

/-- Continuation byte test of UTF-8: 0x80 to 0xBF. -/
def utf8ContByte (b : Nat) : Bool := 0x80 ≤ b && b ≤ 0xBF

/-- UTF-8 validity of a byte sequence, as checked by str::from_utf8 (which
CStr::to_str calls): ASCII one-byte, C2-DF two-byte, E0/E1-EC/ED/EE-EF
three-byte with their restricted second bytes (no overlongs, no
surrogates), F0/F1-F3/F4 four-byte with their restricted second bytes
(no overlongs, nothing above U+10FFFF). -/
def utf8Valid : List Nat → Bool
  | [] => true
  | b :: rest =>
    if b ≤ 0x7F then utf8Valid rest
    else if 0xC2 ≤ b && b ≤ 0xDF then
      match rest with
      | b2 :: r2 => utf8ContByte b2 && utf8Valid r2
      | [] => false
    else if b = 0xE0 then
      match rest with
      | b2 :: b3 :: r3 =>
        (0xA0 ≤ b2 && b2 ≤ 0xBF) && utf8ContByte b3 && utf8Valid r3
      | _ => false
    else if (0xE1 ≤ b && b ≤ 0xEC) || b = 0xEE || b = 0xEF then
      match rest with
      | b2 :: b3 :: r3 => utf8ContByte b2 && utf8ContByte b3 && utf8Valid r3
      | _ => false
    else if b = 0xED then
      match rest with
      | b2 :: b3 :: r3 =>
        (0x80 ≤ b2 && b2 ≤ 0x9F) && utf8ContByte b3 && utf8Valid r3
      | _ => false
    else if b = 0xF0 then
      match rest with
      | b2 :: b3 :: b4 :: r4 =>
        (0x90 ≤ b2 && b2 ≤ 0xBF) && utf8ContByte b3 && utf8ContByte b4 && utf8Valid r4
      | _ => false
    else if 0xF1 ≤ b && b ≤ 0xF3 then
      match rest with
      | b2 :: b3 :: b4 :: r4 =>
        utf8ContByte b2 && utf8ContByte b3 && utf8ContByte b4 && utf8Valid r4
      | _ => false
    else if b = 0xF4 then
      match rest with
      | b2 :: b3 :: b4 :: r4 =>
        (0x80 ≤ b2 && b2 ≤ 0x8F) && utf8ContByte b3 && utf8ContByte b4 && utf8Valid r4
      | _ => false
    else false

/-- IoctlArgument::create_cstring_from_rule from ioctlcmd/mod.rs, on a
decoded RULE_SIZE-wide rule field, allocation succeeding: take the
bytes before the first NUL (the whole field when no NUL is present),
append a NUL (always well-formed, so CStr::from_bytes_with_nul cannot
fail), then CStr::to_str validates UTF-8 and returns EINVAL on
failure; the final CString::try_from_fmt re-renders the same bytes. -/
def create_cstring_from_rule (rule : List Nat) : Except Nat (List Nat) :=
  let rule_len := (position_of_nul rule).getD RULE_SIZE
  let bytes := rule.take rule_len
  if utf8Valid bytes then .ok bytes else .error EINVAL

/-- Outcome of a kernel-side operation that can also abort the task: a
returned value, a returned errno, or a panic (expect/unwrap firing). -/
inductive KOut (α : Type) where
  | ok (a : α)
  | err (e : Nat)
  | panic
deriving DecidableEq

/-- Allocation oracle: the success of the successive heap allocations an
operation performs, in program order; an exhausted oracle means the
remaining allocations succeed. -/
abbrev Alloc := List Bool

/-- Consume the next allocation outcome from the oracle. -/
def alloc_next : Alloc → Bool × Alloc
  | [] => (true, [])
  | b :: rest => (b, rest)

/-- Rule::clone from structures/mod.rs: one CString::try_from_fmt
allocation, then unwrap, so an allocation failure panics instead of
returning an error; the clone carries the same bytes. -/
def rule_clone (r : RuleBytes) (o : Alloc) : KOut RuleBytes × Alloc :=
  let (okA, o1) := alloc_next o
  if okA then (.ok r, o1) else (.panic, o1)

/-- The per-rule loop of UserRule::clone: each iteration clones one Rule
(which may panic) and pushes it (one allocation; failure propagates as
Err via the question-mark operator, modelled with ENOMEM as the push
errno). -/
def clone_rules_loop : List RuleBytes → Alloc → KOut (List RuleBytes) × Alloc
  | [], o => (.ok [], o)
  | r :: rs, o =>
    match rule_clone r o with
    | (.ok rc, o1) =>
      let (okPush, o2) := alloc_next o1
      if okPush then
        match clone_rules_loop rs o2 with
        | (.ok rest, o3) => (.ok (rc :: rest), o3)
        | (.err e, o3) => (.err e, o3)
        | (.panic, o3) => (.panic, o3)
      else (.err ENOMEM, o2)
    | (.err e, o1) => (.err e, o1)
    | (.panic, o1) => (.panic, o1)

/-- UserRule::clone: Vec::with_capacity followed by expect, so a failed
reservation panics; then the per-rule loop. -/
def user_rule_clone (ur : UserRule) (o : Alloc) : KOut UserRule × Alloc :=
  let (okCap, o1) := alloc_next o
  if okCap then
    match clone_rules_loop ur.rules o1 with
    | (.ok rs, o2) => (.ok ⟨ur.uid, rs⟩, o2)
    | (.err e, o2) => (.err e, o2)
    | (.panic, o2) => (.panic, o2)
  else (.panic, o1)

/-- The per-entry loop of get_all_rules: clone each UserRule (Err from the
clone propagates as Err, a panic aborts) and push it into the cloned
store (one allocation; failure propagates as Err ENOMEM). -/
def get_all_rules_loop : List UserRule → Alloc → KOut (List UserRule) × Alloc
  | [], o => (.ok [], o)
  | ur :: rest, o =>
    match user_rule_clone ur o with
    | (.ok c, o1) =>
      let (okPush, o2) := alloc_next o1
      if okPush then
        match get_all_rules_loop rest o2 with
        | (.ok cs, o3) => (.ok (c :: cs), o3)
        | (.err e, o3) => (.err e, o3)
        | (.panic, o3) => (.panic, o3)
      else (.err ENOMEM, o2)
    | (.err e, o1) => (.err e, o1)
    | (.panic, o1) => (.panic, o1)

/-- UserRuleStore::get_all_rules from structures/mod.rs with explicit
allocation outcomes: Vec::with_capacity(store.len()) followed by
expect (a failed reservation panics), then the per-entry clone loop. -/
def get_all_rules (store : Store) (o : Alloc) : KOut (List UserRule) × Alloc :=
  let (okCap, o1) := alloc_next o
  if okCap then get_all_rules_loop store o1 else (.panic, o1)

/-- The uid column of the store, in store order. -/
def uids (s : Store) : List Nat := s.map (fun ur => ur.uid)

/-- The registry invariant: at most one entry per uid, and no entry with an
empty rule list. -/
def StoreInv (s : Store) : Prop :=
  (uids s).Nodup ∧ ∀ ur ∈ s, ur.rules ≠ []

/-- The states reachable from the empty store by add_rule and remove_rule
calls. -/
inductive Reachable : Store → Prop
  | empty : Reachable []
  | add (uid : Nat) (r : RuleBytes) {s : Store} :
      Reachable s → Reachable (add_rule s uid r)
  | remove (uid : Nat) (r : RuleBytes) {s : Store} :
      Reachable s → Reachable (remove_rule s uid r)

lemma mem_uids_add_rule {s : Store} {uid : Nat} {r : RuleBytes} {x : Nat} :
    x ∈ uids (add_rule s uid r) ↔ x ∈ uids s ∨ x = uid := by
  induction s with
  | nil => simp [add_rule, uids]
  | cons ur rest ih =>
    by_cases h : ur.uid = uid
    · subst h
      simp [add_rule, uids]
      tauto
    · simp only [add_rule, if_neg h, uids, List.map_cons, List.mem_cons] at *
      tauto

lemma nodup_uids_add_rule {s : Store} {uid : Nat} {r : RuleBytes}
    (h : (uids s).Nodup) : (uids (add_rule s uid r)).Nodup := by
  induction s with
  | nil => simp [add_rule, uids]
  | cons ur rest ih =>
    by_cases heq : ur.uid = uid
    · simpa [add_rule, heq, uids] using h
    · simp only [uids, List.map_cons, List.nodup_cons] at h
      have h1 : ur.uid ∉ uids (add_rule rest uid r) := by
        rw [mem_uids_add_rule]
        rintro (hmem | hx)
        · exact h.1 hmem
        · exact heq hx
      simp only [add_rule, if_neg heq, uids, List.map_cons, List.nodup_cons]
      exact ⟨h1, ih h.2⟩

lemma rules_nonempty_add_rule {s : Store} {uid : Nat} {r : RuleBytes}
    (h : ∀ ur ∈ s, ur.rules ≠ []) :
    ∀ ur ∈ add_rule s uid r, ur.rules ≠ [] := by
  induction s with
  | nil =>
    intro ur hur
    simp [add_rule] at hur
    subst hur
    simp
  | cons hd rest ih =>
    intro ur hur
    by_cases heq : hd.uid = uid
    · simp only [add_rule, if_pos heq, List.mem_cons] at hur
      rcases hur with hur | hur
      · subst hur; simp
      · exact h ur (List.mem_cons_of_mem _ hur)
    · simp only [add_rule, if_neg heq, List.mem_cons] at hur
      rcases hur with hur | hur
      · subst hur; exact h ur (List.mem_cons_self _ _)
      · exact ih (fun u hu => h u (List.mem_cons_of_mem _ hu)) ur hur

lemma uids_remove_rule_sublist (s : Store) (uid : Nat) (r : RuleBytes) :
    List.Sublist (uids (remove_rule s uid r)) (uids s) := by
  induction s with
  | nil => simp [remove_rule]
  | cons ur rest ih =>
    by_cases heq : ur.uid = uid
    · simp only [remove_rule, if_pos heq]
      by_cases hemp : (ur.rules.filter (fun x => decide (x ≠ r))).isEmpty
      · simp only [if_pos hemp, uids, List.map_cons]
        exact ((List.filter_sublist rest).map _).cons _
      · simp only [if_neg hemp, uids, List.map_cons]
        exact (List.Sublist.refl _).cons₂ _
    · simp only [remove_rule, if_neg heq, uids, List.map_cons]
      exact ih.cons₂ _

lemma rules_nonempty_remove_rule {s : Store} {uid : Nat} {r : RuleBytes}
    (h : ∀ ur ∈ s, ur.rules ≠ []) :
    ∀ ur ∈ remove_rule s uid r, ur.rules ≠ [] := by
  induction s with
  | nil => intro ur hur; simp [remove_rule] at hur
  | cons hd rest ih =>
    intro ur hur
    by_cases heq : hd.uid = uid
    · simp only [remove_rule, if_pos heq] at hur
      by_cases hemp : (hd.rules.filter (fun x => decide (x ≠ r))).isEmpty
      · rw [if_pos hemp] at hur
        exact h ur (List.mem_cons_of_mem _ (List.mem_of_mem_filter hur))
      · rw [if_neg hemp] at hur
        rcases List.mem_cons.mp hur with hur | hur
        · subst hur
          simpa [List.isEmpty_iff] using hemp
        · exact h ur (List.mem_cons_of_mem _ hur)
    · simp only [remove_rule, if_neg heq] at hur
      rcases List.mem_cons.mp hur with hur | hur
      · subst hur; exact h ur (List.mem_cons_self _ _)
      · exact ih (fun u hu => h u (List.mem_cons_of_mem _ hu)) ur hur

lemma filter_ne_eq_self {l : List RuleBytes} {r : RuleBytes} (h : r ∉ l) :
    l.filter (fun x => decide (x ≠ r)) = l := by
  rw [List.filter_eq_self]
  intro a ha
  simp only [decide_eq_true_eq]
  exact fun har => h (har ▸ ha)

/-- C3: every store reachable from the empty store by add_rule and
remove_rule calls has at most one entry per uid and no entry with an
empty rule list (removing a user's last rule also removes the user's
entry). -/
theorem reachable_store_inv {s : Store} (h : Reachable s) : StoreInv s := by
  induction h with
  | empty => exact ⟨List.nodup_nil, by simp⟩
  | add uid r _ ih => exact ⟨nodup_uids_add_rule ih.1, rules_nonempty_add_rule ih.2⟩
  | remove uid r _ ih =>
    exact ⟨(uids_remove_rule_sublist _ uid r).nodup ih.1,
      rules_nonempty_remove_rule ih.2⟩

/-- Witness for C3 at a concrete reachable store. -/
theorem reachable_store_inv_witness :
    Reachable (add_rule [] 1001 (strBytes "Hello Rust")) ∧
      StoreInv (add_rule [] 1001 (strBytes "Hello Rust")) :=
  ⟨Reachable.add 1001 _ Reachable.empty,
    reachable_store_inv (Reachable.add 1001 _ Reachable.empty)⟩

/-- C1 counterexample: when the rule being added is already present for the
principal, remove_rule (which removes every byte-equal copy, and prunes
the then-empty entry) does not restore the prior state: the store
holding one entry for uid 1 with the single rule [65] is sent to the
empty store by add then remove. -/
theorem add_remove_inverse_cex :
    remove_rule (add_rule [⟨1, [[65]]⟩] 1 [65]) 1 [65] ≠ [⟨1, [[65]]⟩] := by
  decide

/-- C1 amended: add_rule followed by remove_rule of the same uid and rule
restores the prior store, provided every entry for that uid (under the
registry invariant there is at most one) has a non-empty rule list not
already containing the rule. -/
theorem add_remove_inverse (s : Store) (p : Nat) (r : RuleBytes)
    (h : ∀ ur ∈ s, ur.uid = p → r ∉ ur.rules ∧ ur.rules ≠ []) :
    remove_rule (add_rule s p r) p r = s := by
  induction s with
  | nil => simp [add_rule, remove_rule]
  | cons ur rest ih =>
    by_cases heq : ur.uid = p
    · have hur := h ur (List.mem_cons_self _ _) heq
      simp only [add_rule, if_pos heq, remove_rule, List.filter_append,
        filter_ne_eq_self hur.1]
      have hfr : ([r].filter (fun x => decide (x ≠ r))) = [] := by simp
      rw [hfr, List.append_nil]
      have hne : (ur.rules.isEmpty) = false := by
        simpa [List.isEmpty_iff] using hur.2
      simp [hne]
    · simp only [add_rule, if_neg heq, remove_rule, if_neg heq, List.cons.injEq,
        true_and]
      exact ih (fun u hu hup => h u (List.mem_cons_of_mem _ hu) hup)

/-- Witness for C1 amended at a concrete store, uid and rule. -/
theorem add_remove_inverse_witness :
    (∀ ur ∈ ([⟨2, [[66]]⟩] : Store), ur.uid = 1 → [65] ∉ ur.rules ∧ ur.rules ≠ []) ∧
      remove_rule (add_rule [⟨2, [[66]]⟩] 1 [65]) 1 [65] = [⟨2, [[66]]⟩] :=
  ⟨by decide, add_remove_inverse [⟨2, [[66]]⟩] 1 [65] (by decide)⟩

/-- C2: add_rule performs no length validation: a 257-byte rule, which the
documented constructor Rule::new rejects with EINVAL as exceeding
RULE_SIZE = 256, is nevertheless stored whole by add_rule (which builds
the Rule record directly, bypassing Rule::new), and the call reports
success rather than leaving the store unchanged. -/
theorem add_rule_stores_oversized :
    (List.replicate 257 65).length > RULE_SIZE ∧
      Rule.new (List.replicate 257 65) = Except.error EINVAL ∧
      add_rule [] 1 (List.replicate 257 65) = [⟨1, [List.replicate 257 65]⟩] := by
  refine ⟨?_, ?_, rfl⟩
  · simp only [List.length_replicate, RULE_SIZE]
    omega
  · simp only [Rule.new, List.length_replicate, RULE_SIZE]
    norm_num

/-- C5: the IOCTL_READ_RULES response is truncated to the fixed response
buffer: whatever the store holds for the queried uid, the bytes the
handler copies into the caller's rules buffer never exceed
RULE_BUFFER_SIZE = RULE_SIZE * 16 = 4096, even when the rendered dump
of that user's rules is longer. -/
theorem read_rules_response_bounded (store : Store) (uid : Nat) (out : List Nat)
    (h : rust_ioctl_read_rules store uid = .ok out) :
    out.length ≤ RULE_BUFFER_SIZE := by
  unfold rust_ioctl_read_rules at h
  cases hg : get_rules_by_id store uid with
  | error e => rw [hg] at h; cases h
  | ok opt =>
    rw [hg] at h
    simp only [Except.ok.injEq] at h
    subst h
    simp only [List.length_take]
    omega

/-- Witness for C5 at a concrete store and uid. -/
theorem read_rules_response_bounded_witness :
    rust_ioctl_read_rules [⟨1, [[65]]⟩] 1 = .ok (pretty_print_rules ⟨1, [[65]]⟩) ∧
      (pretty_print_rules ⟨1, [[65]]⟩).length ≤ RULE_BUFFER_SIZE :=
  ⟨by decide, read_rules_response_bounded [⟨1, [[65]]⟩] 1 _ (by decide)⟩

lemma take_position_of_nul (l : List Nat) (n : Nat) (hn : l.length ≤ n) :
    l.take ((position_of_nul l).getD n) = l.takeWhile (fun b => decide (b ≠ 0)) := by
  induction l generalizing n with
  | nil => simp [position_of_nul]
  | cons b t ih =>
    by_cases hb : b = 0
    · subst hb
      simp [position_of_nul, List.takeWhile_cons]
    · simp only [position_of_nul, if_neg hb]
      cases hp : position_of_nul t with
      | some i =>
        have ht := ih t.length (le_refl _)
        rw [hp] at ht
        simp only [Option.getD_some] at ht
        simp only [Option.map_some', Option.getD_some, List.take_succ_cons,
          List.takeWhile_cons, decide_eq_true_eq]
        rw [if_pos hb, ht]
      | none =>
        simp only [List.length_cons] at hn
        obtain ⟨m, rfl⟩ : ∃ m, n = m + 1 := ⟨n - 1, by omega⟩
        have ht := ih m (by omega)
        rw [hp] at ht
        simp only [Option.getD_none] at ht
        simp only [Option.map_none', Option.getD_none, List.take_succ_cons,
          List.takeWhile_cons, decide_eq_true_eq]
        rw [if_pos hb, ht]

lemma takeWhile_ne_zero_eq_self {l : List Nat} (h : ∀ b ∈ l, b ≠ 0) :
    l.takeWhile (fun b => decide (b ≠ 0)) = l := by
  induction l with
  | nil => rfl
  | cons b t ih =>
    have hb : b ≠ 0 := h b (List.mem_cons_self _ _)
    simp only [List.takeWhile_cons, decide_eq_true_eq, if_pos hb]
    rw [ih (fun x hx => h x (List.mem_cons_of_mem _ hx))]

/-- C6: when decoding succeeds, the logical rule value produced by
create_cstring_from_rule is exactly the bytes of the fixed-width rule
field strictly before its first zero byte, and is the entire field
when the field contains no zero byte. -/
theorem create_cstring_extracts_rule_value (rule : List Nat) (v : List Nat)
    (hlen : rule.length = RULE_SIZE)
    (h : create_cstring_from_rule rule = .ok v) :
    v = rule.takeWhile (fun b => decide (b ≠ 0)) ∧
      ((∀ b ∈ rule, b ≠ 0) → v = rule) := by
  unfold create_cstring_from_rule at h
  dsimp only at h
  rw [← hlen, take_position_of_nul rule rule.length (le_refl _)] at h
  by_cases hv : utf8Valid (rule.takeWhile (fun b => decide (b ≠ 0))) = true
  · rw [if_pos hv] at h
    simp only [Except.ok.injEq] at h
    subst h
    exact ⟨rfl, fun hz => takeWhile_ne_zero_eq_self hz⟩
  · rw [if_neg hv] at h
    cases h

/-- Witness for C6 at a concrete rule field: byte 72 then 255 NUL bytes. -/
theorem create_cstring_extracts_rule_value_witness :
    (72 :: List.replicate 255 0).length = RULE_SIZE ∧
      create_cstring_from_rule (72 :: List.replicate 255 0) = .ok [72] ∧
      ([72] : List Nat) = (72 :: List.replicate 255 0).takeWhile (fun b => decide (b ≠ 0)) :=
  ⟨by decide, by decide,
    (create_cstring_extracts_rule_value (72 :: List.replicate 255 0) [72]
      (by decide) (by decide)).1⟩

/-- C7 counterexample: a full-size rule field whose content byte 0xFF is not
valid UTF-8 makes create_cstring_from_rule fail with EINVAL, so decoding
does not succeed for every full-size record: the CStr::to_str UTF-8
check does interpret the rule bytes. -/
theorem decode_rejects_non_utf8 :
    (255 :: List.replicate 255 0).length = RULE_SIZE ∧
      create_cstring_from_rule (255 :: List.replicate 255 0) = .error EINVAL :=
  ⟨by decide, by decide⟩

/-- C7 amended: on a full-size rule field, create_cstring_from_rule
succeeds exactly when the bytes before the first NUL are valid UTF-8,
returning those bytes, and fails with EINVAL (InvalidArgument)
otherwise — so decoding fails with InvalidArgument only for a null
caller pointer (rejected by rust_ioctl before any decode attempt) or
for non-UTF-8 pre-NUL content, never because of the rule content in
any other way; a source buffer that cannot be read in full surfaces
EFAULT earlier, not EINVAL. -/
theorem decode_succeeds_iff_utf8 (rule : List Nat) (hlen : rule.length = RULE_SIZE) :
    create_cstring_from_rule rule =
      if utf8Valid (rule.takeWhile (fun b => decide (b ≠ 0)))
      then .ok (rule.takeWhile (fun b => decide (b ≠ 0)))
      else .error EINVAL := by
  unfold create_cstring_from_rule
  dsimp only
  rw [← hlen, take_position_of_nul rule rule.length (le_refl _)]

/-- Witness for C7 amended at a concrete full-size all-ASCII rule field. -/
theorem decode_succeeds_iff_utf8_witness :
    create_cstring_from_rule (List.replicate 256 65) = .ok (List.replicate 256 65) := by
  rw [decode_succeeds_iff_utf8 (List.replicate 256 65) (by decide)]
  decide

lemma rust_read_eof (store : Store) (count offset : Nat) (copyOk : Bool)
    (h : (full_dump store).length ≤ offset) :
    rust_read store count offset copyOk = (0, [], offset) := by
  unfold rust_read
  rw [if_pos h]

lemma rust_read_step (store : Store) (count offset : Nat)
    (hofs : offset < (full_dump store).length) (hc : 0 < count) :
    rust_read store count offset true =
      ((↑(min count ((full_dump store).length - offset)) : Int),
        ((full_dump store).drop offset).take (min count ((full_dump store).length - offset)),
        offset + min count ((full_dump store).length - offset)) := by
  unfold rust_read
  rw [if_neg (by omega)]
  dsimp only
  rw [if_pos (by omega)]
  rfl

lemma read_seq_flatten (store : Store) (counts : List Nat) (ofs : Nat)
    (hpos : ∀ c ∈ counts, 0 < c)
    (hsum : (full_dump store).length ≤ ofs + counts.sum) :
    (read_seq store counts ofs).flatten = (full_dump store).drop ofs := by
  induction counts generalizing ofs with
  | nil =>
    simp only [read_seq, List.flatten_nil]
    rw [List.drop_eq_nil_of_le]
    simpa using hsum
  | cons c cs ih =>
    by_cases hofs : (full_dump store).length ≤ ofs
    · have hrec := ih ofs (fun x hx => hpos x (List.mem_cons_of_mem _ hx)) (by omega)
      simp only [read_seq, rust_read_eof store c ofs true hofs, List.flatten_cons,
        List.nil_append, hrec]
    · push_neg at hofs
      have hc : 0 < c := hpos c (List.mem_cons_self _ _)
      have hrec := ih (ofs + min c ((full_dump store).length - ofs))
        (fun x hx => hpos x (List.mem_cons_of_mem _ hx))
        (by simp only [List.sum_cons] at hsum; omega)
      simp only [read_seq, rust_read_step store c ofs hofs hc, List.flatten_cons, hrec]
      have hdd : List.drop (ofs + min c ((full_dump store).length - ofs)) (full_dump store)
          = List.drop (min c ((full_dump store).length - ofs))
              (List.drop ofs (full_dump store)) := by
        rw [List.drop_drop, Nat.add_comm]
      rw [hdd]
      exact List.take_append_drop _ _

/-- C4: pagination is complete: for a store that is not mutated between
calls, sequential rust_read calls with positive counts, each starting
at the offset produced by the previous call from offset 0 and together
requesting at least the dump length, concatenate to exactly the full
dump that one rendering of the whole registry produces. -/
theorem pagination_complete (store : Store) (counts : List Nat)
    (hpos : ∀ c ∈ counts, 0 < c)
    (hsum : (full_dump store).length ≤ counts.sum) :
    (read_seq store counts 0).flatten = full_dump store := by
  simpa using read_seq_flatten store counts 0 hpos (by simpa using hsum)

/-- Witness for C4 at a concrete store and count sequence. -/
theorem pagination_complete_witness :
    (∀ c ∈ [10, 10, 10, 10, 10], 0 < c) ∧
      (full_dump [⟨1, [[97]]⟩]).length ≤ [10, 10, 10, 10, 10].sum ∧
      (read_seq [⟨1, [[97]]⟩] [10, 10, 10, 10, 10] 0).flatten = full_dump [⟨1, [[97]]⟩] :=
  ⟨by decide, by decide,
    pagination_complete [⟨1, [[97]]⟩] [10, 10, 10, 10, 10] (by decide) (by decide)⟩

/-- C10: the caller's offset is written back only by a successful copy of a
non-empty slice, and then becomes the old offset plus the bytes
written (equal to the returned count): at or past end-of-dump the call
returns 0 and leaves the offset unchanged; with a zero count it
returns 0 and leaves the offset unchanged; when the copy to user space
fails it returns -EFAULT and leaves the offset unchanged. -/
theorem rust_read_offset_frame (store : Store) (count ofs : Nat) (copyOk : Bool) :
    ((full_dump store).length ≤ ofs →
      rust_read store count ofs copyOk = (0, [], ofs)) ∧
    (ofs < (full_dump store).length → count = 0 →
      rust_read store count ofs copyOk = (0, [], ofs)) ∧
    (ofs < (full_dump store).length → 0 < count → copyOk = false →
      rust_read store count ofs copyOk = (-(EFAULT : Int), [], ofs)) ∧
    (ofs < (full_dump store).length → 0 < count → copyOk = true →
      rust_read store count ofs copyOk =
        ((↑(min count ((full_dump store).length - ofs)) : Int),
          ((full_dump store).drop ofs).take (min count ((full_dump store).length - ofs)),
          ofs + min count ((full_dump store).length - ofs))) := by
  refine ⟨fun h => rust_read_eof store count ofs copyOk h, ?_, ?_, ?_⟩
  · intro hofs hc
    subst hc
    unfold rust_read
    rw [if_neg (by omega)]
    dsimp only
    rw [if_neg (by omega)]
  · intro hofs hc hcopy
    subst hcopy
    unfold rust_read
    rw [if_neg (by omega)]
    dsimp only
    rw [if_pos (by omega)]
    rfl
  · intro hofs hc hcopy
    subst hcopy
    exact rust_read_step store count ofs hofs hc

/-- Witness for C10: a failing copy at a valid offset returns -EFAULT and
leaves the offset at its old value. -/
theorem rust_read_offset_frame_witness :
    rust_read [⟨1, [[97]]⟩] 5 0 false = (-(EFAULT : Int), [], 0) :=
  (rust_read_offset_frame [⟨1, [[97]]⟩] 5 0 false).2.2.1 (by decide) (by decide) rfl

lemma clone_rules_loop_ok (rs : List RuleBytes) :
    ∀ (o : Alloc) (l : List RuleBytes) (o2 : Alloc),
      clone_rules_loop rs o = (.ok l, o2) → l = rs := by
  induction rs with
  | nil =>
    intro o l o2 h
    simp only [clone_rules_loop, Prod.mk.injEq, KOut.ok.injEq] at h
    exact h.1.symm
  | cons r rs ih =>
    intro o l o2 h
    simp only [clone_rules_loop, rule_clone] at h
    split at h
    · rename_i rc o1 heq
      have hrc : rc = r := by
        by_cases hA : (alloc_next o).1 = true
        · rw [if_pos hA] at heq
          simp only [Prod.mk.injEq, KOut.ok.injEq] at heq
          exact heq.1.symm
        · rw [if_neg hA] at heq
          simp at heq
      subst hrc
      by_cases hP : (alloc_next o1).1 = true
      · rw [if_pos hP] at h
        split at h
        · rename_i rest o3 heq2
          simp only [Prod.mk.injEq, KOut.ok.injEq] at h
          rw [← h.1, ih _ rest o3 heq2]
        · simp at h
        · simp at h
      · rw [if_neg hP] at h
        simp at h
    · simp at h
    · simp at h

lemma clone_rules_loop_err (rs : List RuleBytes) :
    ∀ (o : Alloc) (e : Nat) (o2 : Alloc),
      clone_rules_loop rs o = (.err e, o2) → e = ENOMEM := by
  induction rs with
  | nil =>
    intro o e o2 h
    simp [clone_rules_loop] at h
  | cons r rs ih =>
    intro o e o2 h
    simp only [clone_rules_loop, rule_clone] at h
    split at h
    · rename_i rc o1 heq
      by_cases hP : (alloc_next o1).1 = true
      · rw [if_pos hP] at h
        split at h
        · simp at h
        · rename_i e2 o3 heq2
          simp only [Prod.mk.injEq, KOut.err.injEq] at h
          rw [← h.1]
          exact ih _ e2 o3 heq2
        · simp at h
      · rw [if_neg hP] at h
        simp only [Prod.mk.injEq, KOut.err.injEq] at h
        exact h.1.symm
    · rename_i e1 o1 heq
      by_cases hA : (alloc_next o).1 = true
      · rw [if_pos hA] at heq; simp at heq
      · rw [if_neg hA] at heq; simp at heq
    · simp at h

lemma user_rule_clone_ok (ur : UserRule) (o : Alloc) (c : UserRule) (o2 : Alloc)
    (h : user_rule_clone ur o = (.ok c, o2)) : c = ur := by
  simp only [user_rule_clone] at h
  by_cases hA : (alloc_next o).1 = true
  · rw [if_pos hA] at h
    split at h
    · rename_i rs o3 heq
      simp only [Prod.mk.injEq, KOut.ok.injEq] at h
      rw [← h.1, clone_rules_loop_ok ur.rules _ rs o3 heq]
    · simp at h
    · simp at h
  · rw [if_neg hA] at h
    simp at h

lemma user_rule_clone_err (ur : UserRule) (o : Alloc) (e : Nat) (o2 : Alloc)
    (h : user_rule_clone ur o = (.err e, o2)) : e = ENOMEM := by
  simp only [user_rule_clone] at h
  by_cases hA : (alloc_next o).1 = true
  · rw [if_pos hA] at h
    split at h
    · simp at h
    · rename_i e1 o3 heq
      simp only [Prod.mk.injEq, KOut.err.injEq] at h
      rw [← h.1]
      exact clone_rules_loop_err ur.rules _ e1 o3 heq
    · simp at h
  · rw [if_neg hA] at h
    simp at h

lemma get_all_rules_loop_ok (store : Store) :
    ∀ (o : Alloc) (l : List UserRule) (o2 : Alloc),
      get_all_rules_loop store o = (.ok l, o2) → l = store := by
  induction store with
  | nil =>
    intro o l o2 h
    simp only [get_all_rules_loop, Prod.mk.injEq, KOut.ok.injEq] at h
    exact h.1.symm
  | cons ur rest ih =>
    intro o l o2 h
    simp only [get_all_rules_loop] at h
    split at h
    · rename_i c o1 heq
      have hc : c = ur := user_rule_clone_ok ur o c o1 heq
      subst hc
      by_cases hP : (alloc_next o1).1 = true
      · rw [if_pos hP] at h
        split at h
        · rename_i cs o3 heq2
          simp only [Prod.mk.injEq, KOut.ok.injEq] at h
          rw [← h.1, ih _ cs o3 heq2]
        · simp at h
        · simp at h
      · rw [if_neg hP] at h
        simp at h
    · simp at h
    · simp at h

lemma get_all_rules_loop_err (store : Store) :
    ∀ (o : Alloc) (e : Nat) (o2 : Alloc),
      get_all_rules_loop store o = (.err e, o2) → e = ENOMEM := by
  induction store with
  | nil =>
    intro o e o2 h
    simp [get_all_rules_loop] at h
  | cons ur rest ih =>
    intro o e o2 h
    simp only [get_all_rules_loop] at h
    split at h
    · rename_i c o1 heq
      by_cases hP : (alloc_next o1).1 = true
      · rw [if_pos hP] at h
        split at h
        · simp at h
        · rename_i e2 o3 heq2
          simp only [Prod.mk.injEq, KOut.err.injEq] at h
          rw [← h.1]
          exact ih _ e2 o3 heq2
        · simp at h
      · rw [if_neg hP] at h
        simp only [Prod.mk.injEq, KOut.err.injEq] at h
        exact h.1.symm
    · rename_i e1 o1 heq
      simp only [Prod.mk.injEq, KOut.err.injEq] at h
      rw [← h.1]
      exact user_rule_clone_err ur o e1 o1 heq
    · simp at h

/-- C8 counterexample: when the Vec::with_capacity reservation at the start
of get_all_rules fails, the expect call panics instead of returning
ResourceExhausted, so an allocation failure partway through a dump does
not always surface as a returned error value. -/
theorem get_all_rules_panics_on_alloc_failure :
    get_all_rules [⟨1, [[65]]⟩] [false] = (KOut.panic, []) := by decide

/-- C8 amended: a failed allocation during get_all_rules never yields a
partial result as a success: any Ok return is the complete deep copy of
the store, and any returned error is ENOMEM (from a failed Vec push);
but a failed Vec::with_capacity reservation, or a failed CString
re-encoding inside Rule::clone, aborts by panic (expect/unwrap) rather
than returning ResourceExhausted. -/
theorem get_all_rules_ok_complete (store : Store) (o : Alloc) :
    (∀ l o2, get_all_rules store o = (.ok l, o2) → l = store) ∧
    (∀ e o2, get_all_rules store o = (.err e, o2) → e = ENOMEM) := by
  constructor
  · intro l o2 h
    simp only [get_all_rules] at h
    by_cases hA : (alloc_next o).1 = true
    · rw [if_pos hA] at h
      exact get_all_rules_loop_ok store _ l o2 h
    · rw [if_neg hA] at h
      simp at h
  · intro e o2 h
    simp only [get_all_rules] at h
    by_cases hA : (alloc_next o).1 = true
    · rw [if_pos hA] at h
      exact get_all_rules_loop_err store _ e o2 h
    · rw [if_neg hA] at h
      simp at h

/-- Witness for C8 amended: with every allocation succeeding, get_all_rules
returns the complete copy of a concrete store. -/
theorem get_all_rules_ok_complete_witness :
    get_all_rules [⟨1, [[65]]⟩] [] = (KOut.ok [⟨1, [[65]]⟩], ([] : Alloc)) ∧
      ([⟨1, [[65]]⟩] : List UserRule) = [⟨1, [[65]]⟩] :=
  ⟨by decide, (get_all_rules_ok_complete [⟨1, [[65]]⟩] []).1 [⟨1, [[65]]⟩] ([] : Alloc) (by decide)⟩

end SecModule
